import Mathlib

/-!
Verification of the fixed-point quantization codec and the result-analysis
utilities of the MobileNetV3 chest-X-ray hardware-acceleration repository.

The Python sources are embedded shallowly:

* bit-strings become `List Char` over the characters `'0'`/`'1'`;
* Python floats become exact rationals `ℚ` (the scripts' arithmetic on
  floats is modelled by exact rational arithmetic; `str(x).split "."` is
  modelled by the integer/fractional-part split, and the `binary_fractions`
  expansion by the exact binary expansion of the fractional part);
* code that can raise an exception (out-of-range indexing, `int(...)` on
  malformed text) returns `Option`, with `none` for the raised exception;
* file access is modelled by passing the file's content as
  `Option (List (List Char))`: `none` is a missing file, `some lines` its
  list of lines.
-/

namespace Quant

/-- Python `int(c)` restricted to the bit characters: 1 for `'1'`, 0 otherwise
(the sources only ever apply it to `'0'`/`'1'`). -/
def bitInt (c : Char) : ℕ := if c = '1' then 1 else 0

/-- A character of a well-formed bit-string. -/
def IsBit (c : Char) : Prop := c = '0' ∨ c = '1'

instance (c : Char) : Decidable (IsBit c) := by
  unfold IsBit; infer_instance

/-- Unsigned value of a most-significant-bit-first bit-string,
Python `int(s, 2)`. -/
def bitsVal : List Char → ℕ
  | [] => 0
  | c :: t => bitInt c * 2 ^ t.length + bitsVal t

/-- Minimal binary rendering of a natural number, most significant bit first;
`natBits 0 = []` (the zero case is padded separately, see `natToBin`). -/
def natBits : ℕ → List Char
  | 0 => []
  | n + 1 => natBits ((n + 1) / 2) ++ [if (n + 1) % 2 = 1 then '1' else '0']
decreasing_by exact Nat.div_lt_self (Nat.succ_pos n) (by norm_num)

/-- Python `"{0:b}".format n`: minimal binary rendering, `"0"` for zero. -/
def natToBin (n : ℕ) : List Char := if n = 0 then ['0'] else natBits n

/-- Python `format(n, "0" ++ toString w ++ "b")`: binary rendering of `n`
zero-padded on the left to at least `w` characters (never truncated). -/
def formatBin (w n : ℕ) : List Char :=
  List.replicate (w - (natToBin n).length) '0' ++ natToBin n

/-- Binary expansion of the fractional part `q ∈ [0,1)` truncated to `f`
digits, as produced by `str (Binary dec)` split at the point, truncated to
`places_float` characters and right-padded with `'0'` in `float_bin`. -/
def fracBits : ℚ → ℕ → List Char
  | _, 0 => []
  | q, f + 1 =>
    if 1 ≤ 2 * q then '1' :: fracBits (2 * q - 1) f else '0' :: fracBits (2 * q) f

/-- The one's-complement bit flip used inside `two_complement`. -/
def flipBit (c : Char) : Char := if c = '0' then '1' else '0'

/-- The add-one-with-carry pass of `two_complement`, acting on a
least-significant-bit-first list; the final carry out is dropped, exactly as
in the Python loop over `i` in `range (len res - 1, -1, -1)`. -/
def addOneLsb : List Char → List Char
  | [] => []
  | c :: t => if c = '1' then '0' :: addOneLsb t else '1' :: t

/-- `two_complement` from `src/Software/utils/quantization.py`: invert every
bit, then add one with carry propagation from the least-significant end,
building the result backwards and reversing it at the end. -/
def two_complement (res : List Char) : List Char :=
  (addOneLsb ((res.map flipBit).reverse)).reverse

/-- `float_bin` from `src/Software/utils/quantization.py`: encode a real
number into a two's-complement fixed-point bit-string with `places_int`
integer bits and `places_float` fractional bits.  The magnitude is split into
whole and fractional parts; the whole part is rendered by
`format(whole, "0places_intb")`, the fractional part by the truncated binary
expansion (or by `format(0, "0places_floatb")` when it is zero); a negative
sign applies `two_complement` at the end. -/
def float_bin (number : ℚ) (places_int places_float : ℕ) : List Char :=
  let n := |number|
  let whole : ℕ := (⌊n⌋).toNat
  let dec : ℚ := n - ⌊n⌋
  let res := formatBin places_int whole ++
    (if 0 < dec then fracBits dec places_float else formatBin places_float 0)
  if number < 0 then two_complement res else res

/-- The integer-part accumulation loop of `convert_two_complement2decmail`,
over an explicit list of loop indices (`List.range int_len` at the call
site).  `bin_num_int.get? i` models `bin_num_int[i]`, with `none` for the
`IndexError` Python would raise on an out-of-range index. -/
def sumTermsInt (bin_num_int : List Char) (int_len : ℕ) : List ℕ → Option ℚ
  | [] => some 0
  | i :: rest => do
    let c ← bin_num_int.get? i
    let s ← sumTermsInt bin_num_int int_len rest
    some ((if i = 0 then (bitInt c : ℚ) * (-1) * 2 ^ (int_len - 1 - i)
           else (bitInt c : ℚ) * 2 ^ (int_len - 1 - i)) + s)

/-- The fractional-part accumulation loop of `convert_two_complement2decmail`
(the Python loop runs `i` over `range (1, float_len + 1)` and reads
`bin_num_float[i-1] * 2 ** (-i)`; here `j = i - 1` runs over
`List.range float_len`). -/
def sumTermsFrac (bin_num_float : List Char) : List ℕ → Option ℚ
  | [] => some 0
  | j :: rest => do
    let c ← bin_num_float.get? j
    let s ← sumTermsFrac bin_num_float rest
    some ((bitInt c : ℚ) * ((2 : ℚ) ^ (j + 1))⁻¹ + s)

/-- `convert_two_complement2decmail` from
`src/Software/utils/quantization.py`: interpret the first `int_len`
characters as a two's-complement integer (most significant bit weighted
`-2 ^ (int_len - 1)`), the following `float_len` characters as the fractional
part; `none` models the `IndexError` raised when the string is too short. -/
def convert_two_complement2decmail (bin_num : List Char) (int_len float_len : ℕ) :
    Option ℚ := do
  let s1 ← sumTermsInt (bin_num.take int_len) int_len (List.range int_len)
  let s2 ← sumTermsFrac (bin_num.drop int_len) (List.range float_len)
  some (s1 + s2)

/-- The slicing loop of `convert_big_num_to_binary`, over an explicit list of
loop indices; an exception in any chunk's decode aborts the whole call. -/
def decodeSections (full_num : List Char) (int_len float_len : ℕ) :
    List ℕ → Option (List ℚ)
  | [] => some []
  | i :: rest => do
    let q ← convert_two_complement2decmail
      ((full_num.drop (i * (int_len + float_len))).take (int_len + float_len))
      int_len float_len
    let qs ← decodeSections full_num int_len float_len rest
    some (q :: qs)

/-- `convert_big_num_to_binary` from `src/Software/utils/quantization.py`:
slice `full_num` into `section_nums` consecutive chunks of width
`int_len + float_len` (Python slice `full_num[i*num_len:(i+1)*num_len]`) and
decode each chunk with `convert_two_complement2decmail`. -/
def convert_big_num_to_binary (full_num : List Char)
    (section_nums int_len float_len : ℕ) : Option (List ℚ) :=
  decodeSections full_num int_len float_len (List.range section_nums)

/-- Least-significant-bit-first value of a bit list; proof-side companion of
`bitsVal` used to reason about the reversed add-one pass of `two_complement`. -/
def lsbVal : List Char → ℕ
  | [] => 0
  | c :: t => bitInt c + 2 * lsbVal t

/-- One packed line of `qun_conv` from `src/Software/utils/quantization.py`:
the nested loops over the kernel window prepend each encoded value to the
line built so far (`it_raw = rep + it_raw`), so the line ends up in reverse
raster order. -/
def qun_conv_line (kernel : List (List ℚ)) (int_len float_len : ℕ) : List Char :=
  kernel.foldl (fun it_raw row =>
    row.foldl (fun it v => float_bin v int_len float_len ++ it) it_raw) []

/-- The lines emitted by `qun_conv`: one line per output channel, built from
the channel's first input-channel kernel window (`weights[i][0][j][k]`), with
a newline appended to every line. -/
def qun_conv_lines (weights : List (List (List (List ℚ)))) (int_len float_len : ℕ) :
    List (List Char) :=
  weights.map (fun chan => qun_conv_line (chan.headD []) int_len float_len ++ ['\n'])

/-- The overall-assessment classifier of `generate_report` in
`src/Hardware/First Layer/analyze_results.py`: the four-tier `if`/`elif`
chain on the exact-match percentage and the mean error. -/
def assessment (accuracy_percent mean_error : ℚ) : String :=
  if 95 < accuracy_percent ∧ mean_error < 1 then "EXCELLENT"
  else if 90 < accuracy_percent ∧ mean_error < 2 then "GOOD"
  else if 80 < accuracy_percent then "ACCEPTABLE"
  else "NEEDS IMPROVEMENT"

/-- Dictionary built by `read_analysis_file`; a `none` field models an
absent key of the Python dict. -/
structure AnalysisResults where
  total_outputs : Option ℤ
  exact_matches : Option ℤ
  close_matches : Option ℤ
  total_errors : Option ℤ
  mean_error : Option ℚ
  max_error : Option ℚ
deriving DecidableEq

/-- The empty dictionary `\x7b\x7d`. -/
def emptyResults : AnalysisResults := ⟨none, none, none, none, none, none⟩

/-- Whether `pat` is a leading segment of `l`. -/
def startsWithList : List Char → List Char → Bool
  | [], _ => true
  | _ :: _, [] => false
  | p :: ps, c :: cs => p == c && startsWithList ps cs

/-- Python `pat in line` for strings: substring containment. -/
def containsSub (pat : List Char) : List Char → Bool
  | [] => startsWithList pat []
  | c :: cs => startsWithList pat (c :: cs) || containsSub pat cs

/-- Recognized label of the total-outputs line. -/
def labelTotal : List Char := "Total outputs processed:".toList

/-- Recognized label of the exact-matches line. -/
def labelExact : List Char := "Exact matches:".toList

/-- First recognized marker of the close-matches line. -/
def labelClose1 : List Char := "Close matches".toList

/-- Second recognized marker of the close-matches line. -/
def labelClose2 : List Char := "≤1 LSB".toList

/-- Recognized label of the total-errors line. -/
def labelErrors : List Char := "Total errors:".toList

/-- Recognized label of the mean-absolute-error line. -/
def labelMean : List Char := "Mean absolute error:".toList

/-- Recognized label of the maximum-error line. -/
def labelMax : List Char := "Maximum error:".toList

/-- Value of a decimal digit, `none` for any other character. -/
def digitVal? (c : Char) : Option ℕ :=
  if '0' ≤ c ∧ c ≤ '9' then some (c.toNat - 48) else none

/-- Decimal-digit parse of a nonempty digit string; `none` models the
`ValueError` Python `int` raises on malformed text. -/
def parseNat? (l : List Char) : Option ℕ :=
  if l = [] then none
  else l.foldl (fun acc c => acc.bind (fun a => (digitVal? c).map (fun d => 10 * a + d)))
    (some 0)

/-- Python `int textual` parse, restricted to an optional leading minus sign
followed by decimal digits. -/
def parseInt? : List Char → Option ℤ
  | '-' :: rest => (parseNat? rest).map (fun n => -(n : ℤ))
  | l => (parseNat? l).map (fun n => (n : ℤ))

/-- Python `float textual` parse, restricted to the nonnegative decimal
literals the analysis summary contains (`digits` or `digits.digits`). -/
def parseFloat? (l : List Char) : Option ℚ :=
  match l.splitOn '.' with
  | [a] => (parseInt? a).map (fun n => (n : ℚ))
  | [a, b] => do
    let ip ← parseNat? a
    let fp ← parseNat? b
    some ((ip : ℚ) + (fp : ℚ) / 10 ^ b.length)
  | _ => none

/-- Python `str.strip`: drop whitespace from both ends. -/
def trimWs (l : List Char) : List Char :=
  ((l.dropWhile Char.isWhitespace).reverse.dropWhile Char.isWhitespace).reverse

/-- Python `line.split(":")[1].strip()`; `none` models the `IndexError`
raised when the line has no colon. -/
def afterColon? (line : List Char) : Option (List Char) :=
  ((line.splitOn ':').get? 1).map trimWs

/-- Python `line.split("(")[0]` (a split always has a first piece). -/
def beforeParen (line : List Char) : List Char := (line.splitOn '(').headD []

/-- Python `s.split()[0]`: first whitespace-separated token, `none` for the
`IndexError` on an all-whitespace string. -/
def firstToken? (l : List Char) : Option (List Char) :=
  let t := (l.dropWhile Char.isWhitespace).takeWhile (fun c => !c.isWhitespace)
  if t = [] then none else some t

/-- One iteration of the line loop of `read_analysis_file`: the `if`/`elif`
chain over the recognized labels, updating the corresponding dict entry;
`none` models an uncaught parse exception. -/
def parseAnalysisLine (results : AnalysisResults) (line : List Char) :
    Option AnalysisResults :=
  if containsSub labelTotal line then
    ((afterColon? line).bind parseInt?).map (fun v =>
      ⟨some v, results.exact_matches, results.close_matches, results.total_errors,
        results.mean_error, results.max_error⟩)
  else if containsSub labelExact line then
    ((afterColon? (beforeParen line)).bind parseInt?).map (fun v =>
      ⟨results.total_outputs, some v, results.close_matches, results.total_errors,
        results.mean_error, results.max_error⟩)
  else if containsSub labelClose1 line && containsSub labelClose2 line then
    ((afterColon? (beforeParen line)).bind parseInt?).map (fun v =>
      ⟨results.total_outputs, results.exact_matches, some v, results.total_errors,
        results.mean_error, results.max_error⟩)
  else if containsSub labelErrors line then
    ((afterColon? (beforeParen line)).bind parseInt?).map (fun v =>
      ⟨results.total_outputs, results.exact_matches, results.close_matches, some v,
        results.mean_error, results.max_error⟩)
  else if containsSub labelMean line then
    (((afterColon? line).bind firstToken?).bind parseFloat?).map (fun v =>
      ⟨results.total_outputs, results.exact_matches, results.close_matches,
        results.total_errors, some v, results.max_error⟩)
  else if containsSub labelMax line then
    (((afterColon? line).bind firstToken?).bind parseFloat?).map (fun v =>
      ⟨results.total_outputs, results.exact_matches, results.close_matches,
        results.total_errors, results.mean_error, some v⟩)
  else some results

/-- The full line loop of `read_analysis_file`. -/
def parseAnalysisLines (results : AnalysisResults) :
    List (List Char) → Option AnalysisResults
  | [] => some results
  | line :: rest => (parseAnalysisLine results line).bind (fun r => parseAnalysisLines r rest)

/-- `read_analysis_file` from `src/Hardware/First Layer/analyze_results.py`.
The file is passed as `Option (List (List Char))`: `none` is a missing file
(`FileNotFoundError` caught, warning printed, empty dict returned).  The
`Bool` of the result records whether the missing-file warning was printed;
an outer `none` models an uncaught parse exception. -/
def read_analysis_file (file : Option (List (List Char))) :
    Option (AnalysisResults × Bool) :=
  match file with
  | none => some (emptyResults, true)
  | some lines => (parseAnalysisLines emptyResults lines).map (fun r => (r, false))

/-- Value of a hexadecimal digit in either case, `none` otherwise. -/
def hexDigitVal? (c : Char) : Option ℕ :=
  if '0' ≤ c ∧ c ≤ '9' then some (c.toNat - 48)
  else if 'a' ≤ c ∧ c ≤ 'f' then some (c.toNat - 87)
  else if 'A' ≤ c ∧ c ≤ 'F' then some (c.toNat - 55)
  else none

/-- Python `int(s, 16)` restricted to plain hexadecimal digit strings. -/
def parseHex? (l : List Char) : Option ℕ :=
  if l = [] then none
  else l.foldl (fun acc c => acc.bind (fun a => (hexDigitVal? c).map (fun d => 16 * a + d)))
    (some 0)

/-- `read_hex_file` from `src/Hardware/First Layer/analyze_results.py`: strip
each line, skip empty lines, parse the rest as hexadecimal, silently skipping
unparsable lines; a missing file yields the empty list after a warning.  The
`Bool` of the result records whether the missing-file warning was printed. -/
def read_hex_file (file : Option (List (List Char))) : List ℕ × Bool :=
  match file with
  | none => ([], true)
  | some lines =>
    (lines.filterMap (fun line =>
      let l := trimWs line
      if l = [] then none else parseHex? l), false)

/-- The fixed 16-bit chunk width of
`src/Hardware/Top module/First Layer/convert_hs1_op_mem.py`. -/
def value_width : ℕ := 16

/-- The consecutive slices `data[i:i+16]` visited by the loop
`for i in range(0, len data, 16)` of the conversion script (the final slice
may be shorter than 16). -/
def toChunks (data : List Char) : List (List Char) :=
  if h : data = [] then []
  else data.take value_width :: toChunks (data.drop value_width)
termination_by data.length
decreasing_by
  have hl : data.length ≠ 0 := fun hl => h (List.eq_nil_of_length_eq_zero hl)
  simp only [List.length_drop, value_width]
  omega

/-- Uppercase hexadecimal digit of a value below 16. -/
def hexDigitChar (n : ℕ) : Char :=
  if n < 10 then Char.ofNat (48 + n) else Char.ofNat (55 + n)

/-- Python `"\x7b:04X\x7d".format v` for `v < 2 ^ 16`: exactly four uppercase
hexadecimal digits, zero-padded. -/
def hex4 (v : ℕ) : List Char :=
  [hexDigitChar (v / 4096 % 16), hexDigitChar (v / 256 % 16),
    hexDigitChar (v / 16 % 16), hexDigitChar (v % 16)]

/-- The module-level conversion loop of
`src/Hardware/Top module/First Layer/convert_hs1_op_mem.py`: remove all
whitespace, slice into 16-bit chunks, keep only full-width chunks, render
each as four uppercase hexadecimal digits (one output line per chunk). -/
def convert_hs1_op_mem (data : List Char) : List (List Char) :=
  let d := data.filter (fun c => !c.isWhitespace)
  ((toChunks d).filter (fun chunk => chunk.length == value_width)).map
    (fun chunk => hex4 (bitsVal chunk))

/-- Specification-side target of the round-trip claim: `x` rounded toward
zero to the nearest multiple of `2 ^ (-f)`. -/
def roundTowardZero (x : ℚ) (f : ℕ) : ℚ :=
  if 0 ≤ x then (⌊x * 2 ^ f⌋ : ℚ) / 2 ^ f else -((⌊(-x) * 2 ^ f⌋ : ℚ) / 2 ^ f)

end Quant

namespace Quant

theorem bitInt_le_one (c : Char) : bitInt c ≤ 1 := by
  unfold bitInt; split <;> omega

theorem bitsVal_append (a b : List Char) :
    bitsVal (a ++ b) = bitsVal a * 2 ^ b.length + bitsVal b := by
  induction a with
  | nil => simp [bitsVal]
  | cons c t ih =>
    simp only [List.cons_append, bitsVal, ih, List.append_eq, List.length_append, pow_add]
    ring

theorem bitsVal_lt (l : List Char) : bitsVal l < 2 ^ l.length := by
  induction l with
  | nil => simp [bitsVal]
  | cons c t ih =>
    have hc := bitInt_le_one c
    simp only [bitsVal, List.length_cons, pow_succ]
    nlinarith [ih]

theorem bitsVal_replicate_zero (k : ℕ) : bitsVal (List.replicate k '0') = 0 := by
  induction k with
  | zero => simp [bitsVal]
  | succ k ih => simp [List.replicate_succ, bitsVal, ih, bitInt]

theorem natBits_val (n : ℕ) : bitsVal (natBits n) = n := by
  induction n using Nat.strong_induction_on with
  | _ n ih =>
    match n with
    | 0 => simp [natBits, bitsVal]
    | n + 1 =>
      rw [natBits, bitsVal_append, ih _ (Nat.div_lt_self (Nat.succ_pos n) (by norm_num))]
      have h2 : (n + 1) % 2 = 1 ∨ (n + 1) % 2 = 0 := by omega
      rcases h2 with h2 | h2 <;> simp [h2, bitsVal, bitInt] <;> try omega

theorem natBits_length_le (n w : ℕ) (h : n < 2 ^ w) : (natBits n).length ≤ w := by
  induction n using Nat.strong_induction_on generalizing w with
  | _ n ih =>
    match n with
    | 0 => simp [natBits]
    | n + 1 =>
      match w with
      | 0 => simp at h
      | w + 1 =>
        rw [natBits]
        have hd : (n + 1) / 2 < 2 ^ w := by
          refine (Nat.div_lt_iff_lt_mul (by norm_num)).mpr ?_
          calc n + 1 < 2 ^ (w + 1) := h
            _ = 2 ^ w * 2 := by ring
        have := ih ((n + 1) / 2) (Nat.div_lt_self (Nat.succ_pos n) (by norm_num)) w hd
        simp only [List.length_append, List.length_cons, List.length_nil]
        omega

theorem natBits_chars (n : ℕ) : ∀ c ∈ natBits n, IsBit c := by
  induction n using Nat.strong_induction_on with
  | _ n ih =>
    match n with
    | 0 => simp [natBits]
    | n + 1 =>
      rw [natBits]
      intro c hc
      rcases List.mem_append.mp hc with h | h
      · exact ih _ (Nat.div_lt_self (Nat.succ_pos n) (by norm_num)) c h
      · simp only [List.mem_singleton] at h
        subst h
        unfold IsBit
        split <;> simp

theorem natToBin_val (n : ℕ) : bitsVal (natToBin n) = n := by
  unfold natToBin
  split
  · simp [bitsVal, bitInt]; omega
  · exact natBits_val n

theorem natToBin_length_le (n w : ℕ) (h : n < 2 ^ w) (hw : 1 ≤ w) :
    (natToBin n).length ≤ w := by
  unfold natToBin
  split
  · simpa using hw
  · exact natBits_length_le n w h

theorem natToBin_chars (n : ℕ) : ∀ c ∈ natToBin n, IsBit c := by
  unfold natToBin
  split
  · simp [IsBit]
  · exact natBits_chars n

theorem formatBin_length (w n : ℕ) :
    (formatBin w n).length = max w (natToBin n).length := by
  simp only [formatBin, List.length_append, List.length_replicate]
  omega

theorem formatBin_length_of_lt (w n : ℕ) (h : n < 2 ^ w) (hw : 1 ≤ w) :
    (formatBin w n).length = w := by
  rw [formatBin_length]
  have := natToBin_length_le n w h hw
  omega

theorem formatBin_val (w n : ℕ) : bitsVal (formatBin w n) = n := by
  rw [formatBin, bitsVal_append, bitsVal_replicate_zero, natToBin_val]
  ring

theorem formatBin_chars (w n : ℕ) : ∀ c ∈ formatBin w n, IsBit c := by
  intro c hc
  rcases List.mem_append.mp hc with h | h
  · rw [List.eq_of_mem_replicate h]; exact Or.inl rfl
  · exact natToBin_chars n c h

theorem fracBits_length (f : ℕ) : ∀ q : ℚ, (fracBits q f).length = f := by
  induction f with
  | zero => intro q; rfl
  | succ f ih =>
    intro q
    rw [fracBits]
    split <;> simp [ih]

theorem fracBits_chars (f : ℕ) : ∀ q : ℚ, ∀ c ∈ fracBits q f, IsBit c := by
  induction f with
  | zero => intro q c hc; simp [fracBits] at hc
  | succ f ih =>
    intro q c hc
    rw [fracBits] at hc
    split at hc <;> rcases List.mem_cons.mp hc with h | h <;>
      first
        | (subst h; simp [IsBit])
        | exact ih _ c h

theorem fracBits_val (f : ℕ) : ∀ q : ℚ, 0 ≤ q → q < 1 →
    (bitsVal (fracBits q f) : ℤ) = ⌊q * 2 ^ f⌋ := by
  induction f with
  | zero =>
    intro q h0 h1
    simp only [fracBits, bitsVal, pow_zero, mul_one, Nat.cast_zero]
    rw [Int.floor_eq_zero_iff.mpr ⟨h0, h1⟩]
  | succ f ih =>
    intro q h0 h1
    rw [fracBits]
    split
    · rename_i hq
      have hv := ih (2 * q - 1) (by linarith) (by linarith)
      have hfloor : ⌊(2 * q - 1) * 2 ^ f⌋ = ⌊q * 2 ^ (f + 1)⌋ - 2 ^ f := by
        rw [show (2 * q - 1) * 2 ^ f = q * 2 ^ (f + 1) - ((2 ^ f : ℤ) : ℚ) by push_cast; ring,
          Int.floor_sub_int]
      simp only [bitsVal, fracBits_length, bitInt, if_pos rfl]
      push_cast
      rw [hv, hfloor]
      ring
    · rename_i hq
      push_neg at hq
      have hv := ih (2 * q) (by linarith) (by linarith)
      have hfloor : ⌊(2 * q) * 2 ^ f⌋ = ⌊q * 2 ^ (f + 1)⌋ := by
        rw [show (2 * q) * 2 ^ f = q * 2 ^ (f + 1) by ring]
      simp only [bitsVal, fracBits_length, bitInt]
      rw [if_neg (by decide)]
      push_cast
      rw [hv, hfloor]
      ring

end Quant

namespace Quant

theorem bitInt_zero : bitInt '0' = 0 := by decide

theorem bitInt_one : bitInt '1' = 1 := by decide

theorem lsbVal_lt (l : List Char) : lsbVal l < 2 ^ l.length := by
  induction l with
  | nil => simp [lsbVal]
  | cons c t ih =>
    have hc := bitInt_le_one c
    simp only [lsbVal, List.length_cons, pow_succ]
    omega

theorem bitsVal_reverse (l : List Char) : bitsVal l.reverse = lsbVal l := by
  induction l with
  | nil => rfl
  | cons c t ih =>
    rw [List.reverse_cons, bitsVal_append, ih]
    have h1 : bitsVal [c] = bitInt c := by simp [bitsVal]
    have h2 : ([c] : List Char).length = 1 := rfl
    rw [h1, h2, pow_one, lsbVal]
    omega

theorem addOneLsb_length (l : List Char) : (addOneLsb l).length = l.length := by
  induction l with
  | nil => rfl
  | cons c t ih =>
    rw [addOneLsb]
    split <;> simp [ih]

theorem lsbVal_addOneLsb (l : List Char) (hb : ∀ c ∈ l, IsBit c) :
    lsbVal (addOneLsb l) = (lsbVal l + 1) % 2 ^ l.length := by
  induction l with
  | nil => rfl
  | cons c t ih =>
    have hvt := lsbVal_lt t
    rw [addOneLsb]
    rcases hb c (List.mem_cons_self c t) with hc | hc <;> subst hc
    · rw [if_neg (by decide)]
      have hlhs : lsbVal ('1' :: t) = 2 * lsbVal t + 1 := by
        simp only [lsbVal, bitInt_one]; omega
      have hrhs : lsbVal ('0' :: t) + 1 = 2 * lsbVal t + 1 := by
        simp only [lsbVal, bitInt_zero]; omega
      rw [hlhs, List.length_cons, hrhs,
        Nat.mod_eq_of_lt (show 2 * lsbVal t + 1 < 2 ^ (t.length + 1) by rw [pow_succ]; omega)]
    · rw [if_pos rfl]
      have iht := ih (fun x hx => hb x (List.mem_cons_of_mem _ hx))
      have hlhs : lsbVal ('0' :: addOneLsb t) = 2 * lsbVal (addOneLsb t) := by
        simp only [lsbVal, bitInt_zero]; omega
      have hrhs : lsbVal ('1' :: t) + 1 = 2 * (lsbVal t + 1) := by
        simp only [lsbVal, bitInt_one]; omega
      rw [hlhs, iht, List.length_cons, hrhs, pow_succ,
        show (2 : ℕ) ^ t.length * 2 = 2 * 2 ^ t.length by ring,
        Nat.mul_mod_mul_left]

theorem flipBit_isBit (c : Char) : IsBit (flipBit c) := by
  unfold flipBit IsBit
  split <;> simp

theorem addOneLsb_chars (l : List Char) (hb : ∀ c ∈ l, IsBit c) :
    ∀ c ∈ addOneLsb l, IsBit c := by
  induction l with
  | nil => simp [addOneLsb]
  | cons c t ih =>
    rw [addOneLsb]
    intro x hx
    split at hx
    · rcases List.mem_cons.mp hx with h | h
      · subst h; exact Or.inl rfl
      · exact ih (fun y hy => hb y (List.mem_cons_of_mem c hy)) x h
    · rcases List.mem_cons.mp hx with h | h
      · subst h; exact Or.inr rfl
      · exact hb x (List.mem_cons_of_mem c h)

theorem two_complement_length (l : List Char) :
    (two_complement l).length = l.length := by
  simp [two_complement, addOneLsb_length]

theorem two_complement_chars (l : List Char) : ∀ c ∈ two_complement l, IsBit c := by
  intro c hc
  simp only [two_complement, List.mem_reverse] at hc
  refine addOneLsb_chars _ ?_ c hc
  intro x hx
  simp only [List.mem_reverse, List.mem_map] at hx
  obtain ⟨y, _, hy⟩ := hx
  rw [← hy]
  exact flipBit_isBit y

theorem bitsVal_flip (l : List Char) (hb : ∀ c ∈ l, IsBit c) :
    bitsVal (l.map flipBit) = 2 ^ l.length - 1 - bitsVal l := by
  induction l with
  | nil => rfl
  | cons c t ih =>
    have iht := ih (fun y hy => hb y (List.mem_cons_of_mem c hy))
    have hvt := bitsVal_lt t
    rcases hb c (List.mem_cons_self c t) with hc | hc <;> subst hc
    · have h1 : flipBit '0' = '1' := by decide
      simp only [List.map_cons, bitsVal, List.length_map, List.length_cons, h1,
        bitInt_zero, bitInt_one, iht, pow_succ]
      omega
    · have h1 : flipBit '1' = '0' := by decide
      simp only [List.map_cons, bitsVal, List.length_map, List.length_cons, h1,
        bitInt_zero, bitInt_one, iht, pow_succ]
      omega

theorem bitsVal_two_complement (l : List Char) (hb : ∀ c ∈ l, IsBit c) :
    bitsVal (two_complement l) = (2 ^ l.length - bitsVal l) % 2 ^ l.length := by
  have hrb : ∀ c ∈ (l.map flipBit).reverse, IsBit c := by
    intro x hx
    simp only [List.mem_reverse, List.mem_map] at hx
    obtain ⟨y, _, hy⟩ := hx
    rw [← hy]; exact flipBit_isBit y
  have h1 : bitsVal (two_complement l) = lsbVal (addOneLsb ((l.map flipBit).reverse)) := by
    rw [two_complement, bitsVal_reverse]
  rw [h1, lsbVal_addOneLsb _ hrb, ← bitsVal_reverse, List.reverse_reverse,
    bitsVal_flip l hb]
  have hlen : ((l.map flipBit).reverse).length = l.length := by simp
  rw [hlen]
  have hvl := bitsVal_lt l
  have h2 : 2 ^ l.length - 1 - bitsVal l + 1 = 2 ^ l.length - bitsVal l := by omega
  rw [h2]

theorem bitsVal_inj (a b : List Char) (hlen : a.length = b.length)
    (ha : ∀ c ∈ a, IsBit c) (hb : ∀ c ∈ b, IsBit c)
    (hv : bitsVal a = bitsVal b) : a = b := by
  induction a generalizing b with
  | nil =>
    cases b with
    | nil => rfl
    | cons d u => simp at hlen
  | cons c t ih =>
    cases b with
    | nil => simp at hlen
    | cons d u =>
      have hlen' : t.length = u.length := by simpa using hlen
      have hvt := bitsVal_lt t
      have hvu := bitsVal_lt u
      rw [hlen'] at hvt
      simp only [bitsVal, hlen'] at hv
      have hct := fun y hy => ha y (List.mem_cons_of_mem c hy)
      have hdu := fun y hy => hb y (List.mem_cons_of_mem d hy)
      rcases ha c (List.mem_cons_self c t) with hc | hc <;>
        rcases hb d (List.mem_cons_self d u) with hd | hd <;>
          subst hc <;> subst hd <;>
            simp only [bitInt_zero, bitInt_one, zero_mul, one_mul, zero_add] at hv
      · rw [ih u hlen' hct hdu hv]
      · omega
      · omega
      · have hv' : bitsVal t = bitsVal u := by omega
        rw [ih u hlen' hct hdu hv']

end Quant

namespace Quant

theorem get?_eq_some_getD (l : List Char) (i : ℕ) (h : i < l.length) :
    l.get? i = some (l.getD i '0') := by
  induction l generalizing i with
  | nil => simp at h
  | cons c t ih =>
    cases i with
    | zero => rfl
    | succ i =>
      rw [List.getD_cons_succ]
      exact ih i (by simpa using h)

theorem sumTermsInt_eval (l : List Char) (m : ℕ) (ids : List ℕ)
    (hids : ∀ i ∈ ids, i < l.length) :
    sumTermsInt l m ids = some ((ids.map (fun i =>
      if i = 0 then (bitInt (l.getD i '0') : ℚ) * (-1) * 2 ^ (m - 1 - i)
      else (bitInt (l.getD i '0') : ℚ) * 2 ^ (m - 1 - i))).sum) := by
  induction ids with
  | nil => rfl
  | cons i rest ih =>
    rw [sumTermsInt, get?_eq_some_getD l i (hids i (List.mem_cons_self i rest)),
      ih (fun j hj => hids j (List.mem_cons_of_mem i hj))]
    simp [List.sum_cons]

theorem sumTermsFrac_eval (l : List Char) (ids : List ℕ)
    (hids : ∀ i ∈ ids, i < l.length) :
    sumTermsFrac l ids = some ((ids.map (fun j =>
      (bitInt (l.getD j '0') : ℚ) * ((2 : ℚ) ^ (j + 1))⁻¹)).sum) := by
  induction ids with
  | nil => rfl
  | cons i rest ih =>
    rw [sumTermsFrac, get?_eq_some_getD l i (hids i (List.mem_cons_self i rest)),
      ih (fun j hj => hids j (List.mem_cons_of_mem i hj))]
    simp [List.sum_cons]

theorem sum_int_terms (t : List Char) :
    ((List.range t.length).map (fun i =>
      (bitInt (t.getD i '0') : ℚ) * 2 ^ (t.length - 1 - i))).sum = (bitsVal t : ℚ) := by
  induction t with
  | nil => simp [bitsVal]
  | cons c u ih =>
    rw [List.length_cons, List.range_succ_eq_map]
    simp only [List.map_cons, List.sum_cons, List.map_map]
    have hfun : ∀ i ∈ List.range u.length,
        ((fun i => (bitInt ((c :: u).getD i '0') : ℚ) * 2 ^ (u.length + 1 - 1 - i)) ∘
          Nat.succ) i
          = (bitInt (u.getD i '0') : ℚ) * 2 ^ (u.length - 1 - i) := by
      intro i hi
      simp only [Function.comp_apply, List.getD_cons_succ]
      congr 2
      omega
    rw [List.map_congr_left hfun, ih]
    simp only [List.getD_cons_zero, bitsVal]
    push_cast
    simp [Nat.sub_zero]

theorem sum_frac_terms (t : List Char) :
    ((List.range t.length).map (fun j =>
      (bitInt (t.getD j '0') : ℚ) * ((2 : ℚ) ^ (j + 1))⁻¹)).sum
      = (bitsVal t : ℚ) / 2 ^ t.length := by
  induction t with
  | nil => simp [bitsVal]
  | cons c u ih =>
    rw [List.length_cons, List.range_succ_eq_map]
    simp only [List.map_cons, List.sum_cons, List.map_map]
    have hfun : ∀ j ∈ List.range u.length,
        ((fun j => (bitInt ((c :: u).getD j '0') : ℚ) * ((2 : ℚ) ^ (j + 1))⁻¹) ∘
          Nat.succ) j
          = (1 / 2) * ((bitInt (u.getD j '0') : ℚ) * ((2 : ℚ) ^ (j + 1))⁻¹) := by
      intro j hj
      simp only [Function.comp_apply, List.getD_cons_succ, pow_succ]
      rw [mul_inv]
      ring
    rw [List.map_congr_left hfun, List.sum_map_mul_left, ih]
    simp only [List.getD_cons_zero, bitsVal]
    push_cast
    have h2 : ((2 : ℚ) ^ (u.length + 1)) = 2 ^ u.length * 2 := by ring
    rw [h2]
    have hne : ((2 : ℚ) ^ u.length) ≠ 0 := by positivity
    field_simp
    ring

end Quant

namespace Quant

theorem sum_int_terms_cons (c : Char) (t : List Char) :
    ((List.range (t.length + 1)).map (fun i =>
      if i = 0 then (bitInt ((c :: t).getD i '0') : ℚ) * (-1) * 2 ^ (t.length + 1 - 1 - i)
      else (bitInt ((c :: t).getD i '0') : ℚ) * 2 ^ (t.length + 1 - 1 - i))).sum
      = (bitsVal t : ℚ) - (bitInt c : ℚ) * 2 ^ t.length := by
  rw [List.range_succ_eq_map]
  simp only [List.map_cons, List.sum_cons, List.map_map]
  have hfun : ∀ i ∈ List.range t.length,
      ((fun i => if i = 0 then
          (bitInt ((c :: t).getD i '0') : ℚ) * (-1) * 2 ^ (t.length + 1 - 1 - i)
        else (bitInt ((c :: t).getD i '0') : ℚ) * 2 ^ (t.length + 1 - 1 - i)) ∘
          Nat.succ) i
        = (bitInt (t.getD i '0') : ℚ) * 2 ^ (t.length - 1 - i) := by
    intro i hi
    simp only [Function.comp_apply]
    rw [if_neg (Nat.succ_ne_zero i), List.getD_cons_succ]
    congr 2
    omega
  rw [List.map_congr_left hfun, sum_int_terms t]
  rw [if_true]
  simp only [List.getD_cons_zero]
  have h0 : t.length + 1 - 1 - 0 = t.length := by omega
  rw [h0]
  ring

theorem getD_take (l : List Char) (f j : ℕ) (h : j < f) :
    (l.take f).getD j '0' = l.getD j '0' := by
  induction l generalizing f j with
  | nil => simp
  | cons c t ih =>
    cases f with
    | zero => omega
    | succ f =>
      cases j with
      | zero => simp
      | succ j => simpa using ih f j (by omega)

theorem sum_frac_terms_take (l : List Char) (f : ℕ) (hf : f ≤ l.length) :
    ((List.range f).map (fun j =>
      (bitInt (l.getD j '0') : ℚ) * ((2 : ℚ) ^ (j + 1))⁻¹)).sum
      = (bitsVal (l.take f) : ℚ) / 2 ^ f := by
  have hlen : (l.take f).length = f := by rw [List.length_take]; omega
  have hmain := sum_frac_terms (l.take f)
  rw [hlen] at hmain
  rw [← hmain]
  refine congrArg List.sum (List.map_congr_left ?_)
  intro j hj
  rw [getD_take l f j (List.mem_range.mp hj)]

theorem decode_eval (bin : List Char) (i f : ℕ) (hi : 1 ≤ i)
    (hlen : i + f ≤ bin.length) :
    convert_two_complement2decmail bin i f
      = some ((bitsVal (bin.take i) : ℚ) - (bitInt (bin.getD 0 '0') : ℚ) * 2 ^ i
          + (bitsVal ((bin.drop i).take f) : ℚ) / 2 ^ f) := by
  have hl1 : (bin.take i).length = i := by
    rw [List.length_take]; omega
  have hl2 : f ≤ (bin.drop i).length := by
    rw [List.length_drop]; omega
  obtain ⟨c, t, hct⟩ : ∃ c t, bin.take i = c :: t := by
    cases hbt : bin.take i with
    | nil => rw [hbt] at hl1; simp at hl1; omega
    | cons c t => exact ⟨c, t, rfl⟩
  have hd0 : bin.getD 0 '0' = c := by
    conv_lhs => rw [← List.take_append_drop i bin]
    rw [hct]
    rfl
  have hti : t.length + 1 = i := by rw [← hl1, hct]; rfl
  rw [convert_two_complement2decmail,
    sumTermsInt_eval (bin.take i) i (List.range i)
      (fun j hj => by rw [hl1]; exact List.mem_range.mp hj),
    sumTermsFrac_eval (bin.drop i) (List.range f)
      (fun j hj => lt_of_lt_of_le (List.mem_range.mp hj) hl2)]
  apply congrArg some
  rw [sum_frac_terms_take (bin.drop i) f hl2]
  rw [hct, hd0, ← hti]
  rw [sum_int_terms_cons c t]
  have hbv : bitsVal (c :: t) = bitInt c * 2 ^ t.length + bitsVal t := rfl
  rw [hbv]
  push_cast
  ring

theorem msb_zero (c : Char) (t : List Char)
    (hv : bitsVal (c :: t) < 2 ^ t.length) : bitInt c = 0 := by
  have h1 := bitInt_le_one c
  by_contra h
  have h2 : bitInt c = 1 := by omega
  simp only [bitsVal, h2, one_mul] at hv
  omega

theorem msb_one (c : Char) (t : List Char)
    (hv : 2 ^ t.length ≤ bitsVal (c :: t)) : bitInt c = 1 := by
  have h1 := bitInt_le_one c
  by_contra h
  have h2 : bitInt c = 0 := by omega
  have h3 := bitsVal_lt t
  simp only [bitsVal, h2, zero_mul, zero_add] at hv
  omega

end Quant

namespace Quant

theorem float_bin_def (x : ℚ) (i f : ℕ) :
    float_bin x i f =
      if x < 0 then
        two_complement (formatBin i (⌊|x|⌋).toNat ++
          (if 0 < |x| - ⌊|x|⌋ then fracBits (|x| - ⌊|x|⌋) f else formatBin f 0))
      else
        formatBin i (⌊|x|⌋).toNat ++
          (if 0 < |x| - ⌊|x|⌋ then fracBits (|x| - ⌊|x|⌋) f else formatBin f 0) := rfl

theorem frac_sub_floor_nonneg (x : ℚ) : 0 ≤ x - ⌊x⌋ := by
  have := Int.fract_nonneg x
  rwa [Int.self_sub_floor] 

theorem frac_sub_floor_lt_one (x : ℚ) : x - ⌊x⌋ < 1 := by
  have := Int.fract_lt_one x
  rwa [Int.self_sub_floor]

theorem mag_length (x : ℚ) (i f : ℕ) (hx : 0 ≤ x) (hi : 1 ≤ i) (hf : 1 ≤ f)
    (hxi : x < 2 ^ i) :
    (formatBin i (⌊x⌋).toNat ++
      (if 0 < x - ⌊x⌋ then fracBits (x - ⌊x⌋) f else formatBin f 0)).length = i + f := by
  have hfl : ⌊x⌋ < (2 : ℤ) ^ i := by
    rw [Int.floor_lt]; push_cast; exact hxi
  have hfl0 : 0 ≤ ⌊x⌋ := Int.floor_nonneg.mpr hx
  have hw : (⌊x⌋).toNat < 2 ^ i := by
    have h2 : ((2 : ℤ) ^ i) = ((2 ^ i : ℕ) : ℤ) := by push_cast; ring
    rw [h2] at hfl
    omega
  rw [List.length_append, formatBin_length_of_lt i _ hw hi]
  congr 1
  split
  · exact fracBits_length f _
  · exact formatBin_length_of_lt f 0 (by positivity) hf

theorem mag_chars (x : ℚ) (i f : ℕ) :
    ∀ c ∈ formatBin i (⌊x⌋).toNat ++
      (if 0 < x - ⌊x⌋ then fracBits (x - ⌊x⌋) f else formatBin f 0), IsBit c := by
  intro c hc
  rcases List.mem_append.mp hc with h | h
  · exact formatBin_chars _ _ c h
  · split at h
    · exact fracBits_chars f _ c h
    · exact formatBin_chars _ _ c h

theorem mag_val (x : ℚ) (i f : ℕ) (hx : 0 ≤ x) (hf : 1 ≤ f) :
    (bitsVal (formatBin i (⌊x⌋).toNat ++
      (if 0 < x - ⌊x⌋ then fracBits (x - ⌊x⌋) f else formatBin f 0)) : ℤ)
      = ⌊x * 2 ^ f⌋ := by
  have hd0 := frac_sub_floor_nonneg x
  have hd1 := frac_sub_floor_lt_one x
  have hflen : (if 0 < x - ⌊x⌋ then fracBits (x - ⌊x⌋) f else formatBin f 0).length = f := by
    split
    · exact fracBits_length f _
    · exact formatBin_length_of_lt f 0 (by positivity) hf
  have hfval : (bitsVal (if 0 < x - ⌊x⌋ then fracBits (x - ⌊x⌋) f else formatBin f 0) : ℤ)
      = ⌊(x - ⌊x⌋) * 2 ^ f⌋ := by
    split
    · exact fracBits_val f _ hd0 hd1
    · rename_i hz
      push_neg at hz
      have hz0 : x - ⌊x⌋ = 0 := le_antisymm hz hd0
      rw [formatBin_val, hz0]
      simp
  rw [bitsVal_append, hflen]
  have hfl0 : 0 ≤ ⌊x⌋ := Int.floor_nonneg.mpr hx
  have hcast : ((⌊x⌋).toNat : ℤ) = ⌊x⌋ := Int.toNat_of_nonneg hfl0
  have hkey : ⌊x * 2 ^ f⌋ = ⌊(x - ⌊x⌋) * 2 ^ f⌋ + ⌊x⌋ * 2 ^ f := by
    rw [show (x - ⌊x⌋) * 2 ^ f = x * 2 ^ f - ((⌊x⌋ * 2 ^ f : ℤ) : ℚ) by push_cast; ring,
      Int.floor_sub_int]
    ring
  rw [hkey, ← hfval]
  push_cast [formatBin_val, hcast]
  ring

theorem decode_whole (bin : List Char) (i f : ℕ) (hi : 1 ≤ i)
    (hlen : bin.length = i + f) :
    convert_two_complement2decmail bin i f
      = some ((bitsVal bin : ℚ) / 2 ^ f - (bitInt (bin.getD 0 '0') : ℚ) * 2 ^ i) := by
  rw [decode_eval bin i f hi (by omega)]
  apply congrArg some
  have hdt : (bin.drop i).take f = bin.drop i := by
    apply List.take_of_length_le
    rw [List.length_drop]
    omega
  rw [hdt]
  have hexp : bin.length - i = f := by omega
  have hsplit : bitsVal bin = bitsVal (bin.take i) * 2 ^ f + bitsVal (bin.drop i) := by
    conv_lhs => rw [← List.take_append_drop i bin]
    rw [bitsVal_append, List.length_drop, hexp]
  rw [hsplit]
  have h2 : ((2 : ℚ) ^ f) ≠ 0 := by positivity
  push_cast
  field_simp
  ring

theorem decode_signed (bin : List Char) (i f : ℕ) (hi : 1 ≤ i)
    (hlen : bin.length = i + f) :
    convert_two_complement2decmail bin i f
      = some ((bitsVal bin : ℚ) / 2 ^ f -
          (if 2 ^ (i + f - 1) ≤ bitsVal bin then ((2 : ℚ) ^ i) else 0)) := by
  cases bin with
  | nil => simp at hlen; omega
  | cons c t =>
    have ht : t.length = i + f - 1 := by
      simp only [List.length_cons] at hlen
      omega
    rw [decode_whole (c :: t) i f hi hlen]
    apply congrArg some
    by_cases hms : 2 ^ (i + f - 1) ≤ bitsVal (c :: t)
    · rw [if_pos hms]
      have hb := msb_one c t (by rw [ht]; exact hms)
      rw [List.getD_cons_zero, hb]
      push_cast
      ring
    · rw [if_neg hms]
      have hlt : bitsVal (c :: t) < 2 ^ t.length := by
        rw [ht]
        exact lt_of_not_le hms
      have hb := msb_zero c t hlt
      rw [List.getD_cons_zero, hb]
      push_cast
      ring

end Quant

namespace Quant

/-- C1: Round-trip law: for every rational `x` within the representable range
`[-2 ^ (int_len - 1), 2 ^ (int_len - 1) - 2 ^ (-float_len)]` of a fixed-point
format with positive widths, decoding the encoding of `x`
(`convert_two_complement2decmail` applied to the output of `float_bin` with
the same bit split) yields `x` rounded toward zero to the nearest multiple of
`2 ^ (-float_len)` — not necessarily `x` itself. -/
theorem C1_roundtrip_law (x : ℚ) (int_len float_len : ℕ)
    (hi : 1 ≤ int_len) (hf : 1 ≤ float_len)
    (hlo : -((2 : ℚ) ^ (int_len - 1)) ≤ x)
    (hhi : x ≤ (2 : ℚ) ^ (int_len - 1) - ((2 : ℚ) ^ float_len)⁻¹) :
    convert_two_complement2decmail (float_bin x int_len float_len) int_len float_len
      = some (roundTowardZero x float_len) := by
  have hpow : (2 : ℚ) ^ (int_len - 1) * 2 ^ float_len = 2 ^ (int_len + float_len - 1) := by
    rw [← pow_add]
    congr 1
    omega
  rcases le_or_lt 0 x with hx | hx
  · have hxabs : |x| = x := abs_of_nonneg hx
    have hxlt : x < 2 ^ int_len := by
      have h1 : (0 : ℚ) < ((2 : ℚ) ^ float_len)⁻¹ := by positivity
      have h2 : (2 : ℚ) ^ (int_len - 1) ≤ 2 ^ int_len := by
        apply pow_le_pow_right₀ (by norm_num)
        omega
      linarith
    rw [float_bin_def, if_neg (not_lt.mpr hx), hxabs]
    set bin := formatBin int_len (⌊x⌋).toNat ++
      (if 0 < x - ⌊x⌋ then fracBits (x - ⌊x⌋) float_len else formatBin float_len 0)
      with hbin
    have hlen : bin.length = int_len + float_len := mag_length x _ _ hx hi hf hxlt
    have hval : (bitsVal bin : ℤ) = ⌊x * 2 ^ float_len⌋ := mag_val x _ _ hx hf
    have hvalq : (bitsVal bin : ℚ) = ((⌊x * 2 ^ float_len⌋ : ℤ) : ℚ) := by
      exact_mod_cast congrArg (fun z : ℤ => (z : ℚ)) hval
    have hbound : (bitsVal bin : ℚ) < 2 ^ (int_len + float_len - 1) := by
      have hfl : (⌊x * 2 ^ float_len⌋ : ℚ) ≤ x * 2 ^ float_len := Int.floor_le _
      have hmul := mul_le_mul_of_nonneg_right hhi
        (show (0 : ℚ) ≤ 2 ^ float_len by positivity)
      have hprod : ((2 : ℚ) ^ (int_len - 1) - ((2 : ℚ) ^ float_len)⁻¹) * 2 ^ float_len
          = 2 ^ (int_len + float_len - 1) - 1 := by
        rw [sub_mul, inv_mul_cancel₀ (show ((2 : ℚ) ^ float_len) ≠ 0 by positivity), hpow]
      rw [hvalq]
      linarith
    have hboundN : bitsVal bin < 2 ^ (int_len + float_len - 1) := by
      have h2 : ((2 : ℚ) ^ (int_len + float_len - 1))
          = ((2 ^ (int_len + float_len - 1) : ℕ) : ℚ) := by push_cast; ring
      rw [h2] at hbound
      exact_mod_cast hbound
    rw [decode_signed bin _ _ hi hlen, if_neg (not_le.mpr hboundN)]
    apply congrArg some
    rw [roundTowardZero, if_pos hx, hvalq]
    ring
  · have hxabs : |x| = -x := abs_of_neg hx
    have hy0 : 0 ≤ -x := by linarith
    have hsplit : (2 : ℚ) ^ int_len = 2 ^ (int_len - 1) * 2 := by
      rw [← pow_succ]
      congr 1
      omega
    have hylt : -x < 2 ^ int_len := by
      have h1 : (0 : ℚ) < 2 ^ (int_len - 1) := by positivity
      have h2 : -x ≤ 2 ^ (int_len - 1) := by linarith
      rw [hsplit]
      linarith
    rw [float_bin_def, if_pos hx, hxabs]
    set mag := formatBin int_len (⌊-x⌋).toNat ++
      (if 0 < -x - ⌊-x⌋ then fracBits (-x - ⌊-x⌋) float_len else formatBin float_len 0)
      with hmag
    have hlenm : mag.length = int_len + float_len := mag_length (-x) _ _ hy0 hi hf hylt
    have hvalm : (bitsVal mag : ℤ) = ⌊(-x) * 2 ^ float_len⌋ := mag_val (-x) _ _ hy0 hf
    have hvalmq : (bitsVal mag : ℚ) = ((⌊(-x) * 2 ^ float_len⌋ : ℤ) : ℚ) := by
      exact_mod_cast congrArg (fun z : ℤ => (z : ℚ)) hvalm
    have hchars := mag_chars (-x) int_len float_len
    have hlen2 : (two_complement mag).length = int_len + float_len := by
      rw [two_complement_length, hlenm]
    have hval2 : bitsVal (two_complement mag)
        = (2 ^ (int_len + float_len) - bitsVal mag) % 2 ^ (int_len + float_len) := by
      rw [bitsVal_two_complement mag hchars, hlenm]
    have hub : (bitsVal mag : ℚ) ≤ 2 ^ (int_len + float_len - 1) := by
      rw [hvalmq]
      calc ((⌊(-x) * 2 ^ float_len⌋ : ℤ) : ℚ) ≤ (-x) * 2 ^ float_len := Int.floor_le _
        _ ≤ 2 ^ (int_len - 1) * 2 ^ float_len := by
            apply mul_le_mul_of_nonneg_right _ (show (0 : ℚ) ≤ 2 ^ float_len by positivity)
            linarith
        _ = 2 ^ (int_len + float_len - 1) := hpow
    have hm_le : bitsVal mag ≤ 2 ^ (int_len + float_len - 1) := by
      have h2 : ((2 : ℚ) ^ (int_len + float_len - 1))
          = ((2 ^ (int_len + float_len - 1) : ℕ) : ℚ) := by push_cast; ring
      rw [h2] at hub
      exact_mod_cast hub
    have hNsplit : 2 ^ (int_len + float_len)
        = 2 ^ (int_len + float_len - 1) * 2 := by
      rw [← pow_succ]
      congr 1
      omega
    rw [decode_signed (two_complement mag) int_len float_len hi hlen2]
    apply congrArg some
    rw [roundTowardZero, if_neg (not_le.mpr hx)]
    rcases Nat.eq_zero_or_pos (bitsVal mag) with hm0 | hmpos
    · rw [hval2, hm0, Nat.sub_zero, Nat.mod_self]
      rw [if_neg (Nat.not_le.mpr (Nat.two_pow_pos _))]
      have hz : (⌊(-x) * 2 ^ float_len⌋ : ℤ) = 0 := by
        rw [← hvalm, hm0]
        rfl
      rw [hz]
      norm_num
    · have hmod : (2 ^ (int_len + float_len) - bitsVal mag) % 2 ^ (int_len + float_len)
          = 2 ^ (int_len + float_len) - bitsVal mag := by
        apply Nat.mod_eq_of_lt
        have h2N := Nat.two_pow_pos (int_len + float_len)
        omega
      rw [hval2, hmod]
      have hge : 2 ^ (int_len + float_len - 1)
          ≤ 2 ^ (int_len + float_len) - bitsVal mag := by
        omega
      rw [if_pos hge]
      have hvle : bitsVal mag ≤ 2 ^ (int_len + float_len) := by omega
      have hcast : ((2 ^ (int_len + float_len) - bitsVal mag : ℕ) : ℚ)
          = 2 ^ (int_len + float_len) - (bitsVal mag : ℚ) := by
        push_cast [Nat.cast_sub hvle]
        ring
      rw [hcast, hvalmq]
      rw [show ((2 : ℚ) ^ (int_len + float_len)) = 2 ^ int_len * 2 ^ float_len from by
        rw [← pow_add]]
      have h2f : ((2 : ℚ) ^ float_len) ≠ 0 := by positivity
      field_simp
      ring

/-- Witness for C1 at `x = 3/2`, four integer and four fractional bits
(`decode (encode (3/2)) = 3/2`, the spec's concrete scenario). -/
theorem C1_roundtrip_law_witness :
    (1 ≤ 4 ∧ 1 ≤ 4 ∧ -((2 : ℚ) ^ (4 - 1)) ≤ 3 / 2 ∧
      (3 / 2 : ℚ) ≤ 2 ^ (4 - 1) - ((2 : ℚ) ^ 4)⁻¹) ∧
    convert_two_complement2decmail (float_bin (3 / 2) 4 4) 4 4
      = some (roundTowardZero (3 / 2) 4) :=
  ⟨⟨by norm_num, by norm_num, by norm_num, by norm_num⟩,
    C1_roundtrip_law (3 / 2) 4 4 (by norm_num) (by norm_num) (by norm_num) (by norm_num)⟩

end Quant

namespace Quant

theorem two_complement_involutive (l : List Char) (hb : ∀ c ∈ l, IsBit c) :
    two_complement (two_complement l) = l := by
  apply bitsVal_inj
  · rw [two_complement_length, two_complement_length]
  · exact two_complement_chars _
  · exact hb
  · rw [bitsVal_two_complement _ (two_complement_chars l),
      bitsVal_two_complement _ hb, two_complement_length]
    have hv := bitsVal_lt l
    have h2 : 0 < 2 ^ l.length := Nat.two_pow_pos l.length
    rcases Nat.eq_zero_or_pos (bitsVal l) with h0 | hpos
    · rw [h0]
      simp [Nat.mod_self]
    · have h1 : (2 ^ l.length - bitsVal l) % 2 ^ l.length
          = 2 ^ l.length - bitsVal l := Nat.mod_eq_of_lt (by omega)
      rw [h1]
      have h3 : 2 ^ l.length - (2 ^ l.length - bitsVal l) = bitsVal l := by omega
      rw [h3, Nat.mod_eq_of_lt hv]

theorem float_bin_length_of_range (x : ℚ) (int_len float_len : ℕ)
    (hi : 1 ≤ int_len) (hf : 1 ≤ float_len) (habs : |x| < 2 ^ int_len) :
    (float_bin x int_len float_len).length = int_len + float_len := by
  rw [float_bin_def]
  have hm := mag_length |x| int_len float_len (abs_nonneg x) hi hf habs
  split
  · rw [two_complement_length]
    exact hm
  · exact hm

theorem float_bin_chars (x : ℚ) (int_len float_len : ℕ) :
    ∀ c ∈ float_bin x int_len float_len, IsBit c := by
  rw [float_bin_def]
  split
  · exact two_complement_chars _
  · exact mag_chars |x| int_len float_len

theorem abs_lt_pow_of_range (x : ℚ) (int_len float_len : ℕ) (hi : 1 ≤ int_len)
    (hlo : -((2 : ℚ) ^ (int_len - 1)) ≤ x)
    (hhi : x ≤ (2 : ℚ) ^ (int_len - 1) - ((2 : ℚ) ^ float_len)⁻¹) :
    |x| < 2 ^ int_len := by
  have hsplit : (2 : ℚ) ^ int_len = 2 ^ (int_len - 1) * 2 := by
    rw [← pow_succ]
    congr 1
    omega
  have h1 : (0 : ℚ) < 2 ^ (int_len - 1) := by positivity
  have h2 : (0 : ℚ) < ((2 : ℚ) ^ float_len)⁻¹ := by positivity
  rw [abs_lt]
  constructor <;> [skip; skip] <;> rw [hsplit] <;> linarith

/-- C3: Width invariant: for every `x` within the representable range of
positive widths `(int_len, float_len)`, the bit-string
`float_bin x int_len float_len` has length exactly `int_len + float_len` and
consists only of the characters `'0'` and `'1'`. -/
theorem C3_width_invariant (x : ℚ) (int_len float_len : ℕ)
    (hi : 0 < int_len) (hf : 0 < float_len)
    (hlo : -((2 : ℚ) ^ (int_len - 1)) ≤ x)
    (hhi : x ≤ (2 : ℚ) ^ (int_len - 1) - ((2 : ℚ) ^ float_len)⁻¹) :
    (float_bin x int_len float_len).length = int_len + float_len ∧
      ∀ c ∈ float_bin x int_len float_len, c = '0' ∨ c = '1' :=
  ⟨float_bin_length_of_range x int_len float_len hi hf
      (abs_lt_pow_of_range x int_len float_len hi hlo hhi),
    float_bin_chars x int_len float_len⟩

/-- Witness for C3 at `x = -3/2`, four integer and four fractional bits. -/
theorem C3_width_invariant_witness :
    (0 < 4 ∧ 0 < 4 ∧ -((2 : ℚ) ^ (4 - 1)) ≤ -(3 / 2) ∧
      (-(3 / 2) : ℚ) ≤ 2 ^ (4 - 1) - ((2 : ℚ) ^ 4)⁻¹) ∧
    ((float_bin (-(3 / 2)) 4 4).length = 4 + 4 ∧
      ∀ c ∈ float_bin (-(3 / 2)) 4 4, c = '0' ∨ c = '1') :=
  ⟨⟨by norm_num, by norm_num, by norm_num, by norm_num⟩,
    C3_width_invariant (-(3 / 2)) 4 4 (by norm_num) (by norm_num) (by norm_num)
      (by norm_num)⟩

/-- C4: Two's-complement symmetry: for every `x ≠ 0` within the representable
range, `float_bin (-x)` is the two's-complement negation (invert all bits,
add one with carry from the least-significant bit, i.e. `two_complement`) of
`float_bin x`. -/
theorem C4_twos_complement_symmetry (x : ℚ) (int_len float_len : ℕ)
    (hx : x ≠ 0)
    (hlo : -((2 : ℚ) ^ (int_len - 1)) ≤ x)
    (hhi : x ≤ (2 : ℚ) ^ (int_len - 1) - ((2 : ℚ) ^ float_len)⁻¹) :
    float_bin (-x) int_len float_len
      = two_complement (float_bin x int_len float_len) := by
  rcases lt_or_gt_of_ne hx with hneg | hpos
  · have hnn : ¬(-x < 0) := not_lt.mpr (by linarith)
    rw [float_bin_def x, if_pos hneg, float_bin_def (-x), if_neg hnn, abs_neg]
    exact (two_complement_involutive _ (mag_chars |x| int_len float_len)).symm
  · have hn : -x < 0 := by linarith
    rw [float_bin_def (-x), if_pos hn, abs_neg, float_bin_def x,
      if_neg (not_lt.mpr (le_of_lt hpos))]

/-- Witness for C4 at `x = 3/2`, four integer and four fractional bits
(the spec's `encode (-1.5)` scenario). -/
theorem C4_twos_complement_symmetry_witness :
    ((3 / 2 : ℚ) ≠ 0 ∧ -((2 : ℚ) ^ (4 - 1)) ≤ 3 / 2 ∧
      (3 / 2 : ℚ) ≤ 2 ^ (4 - 1) - ((2 : ℚ) ^ 4)⁻¹) ∧
    float_bin (-(3 / 2)) 4 4 = two_complement (float_bin (3 / 2) 4 4) :=
  ⟨⟨by norm_num, by norm_num, by norm_num⟩,
    C4_twos_complement_symmetry (3 / 2) 4 4 (by norm_num) (by norm_num) (by norm_num)⟩

theorem float_bin_overflow_length (x : ℚ) (int_len float_len : ℕ)
    (hf : 1 ≤ float_len) (hover : 2 ^ int_len ≤ (⌊|x|⌋).toNat) :
    (float_bin x int_len float_len).length
      = (natToBin (⌊|x|⌋).toNat).length + float_len ∧
      int_len + float_len < (float_bin x int_len float_len).length := by
  have hL : int_len < (natToBin (⌊|x|⌋).toNat).length := by
    have hlt : (⌊|x|⌋).toNat < 2 ^ (natToBin (⌊|x|⌋).toNat).length := by
      conv_lhs => rw [← natToBin_val (⌊|x|⌋).toNat]
      exact bitsVal_lt _
    by_contra hle
    push_neg at hle
    have hmono := Nat.pow_le_pow_right (show 1 ≤ 2 by norm_num) hle
    omega
  have hflen : (if 0 < |x| - ⌊|x|⌋ then fracBits (|x| - ⌊|x|⌋) float_len
      else formatBin float_len 0).length = float_len := by
    split
    · exact fracBits_length float_len _
    · exact formatBin_length_of_lt float_len 0 (Nat.two_pow_pos _) hf
  have hmaglen : (formatBin int_len (⌊|x|⌋).toNat ++
      (if 0 < |x| - ⌊|x|⌋ then fracBits (|x| - ⌊|x|⌋) float_len
        else formatBin float_len 0)).length
      = (natToBin (⌊|x|⌋).toNat).length + float_len := by
    rw [List.length_append, formatBin_length, hflen]
    omega
  rw [float_bin_def]
  split
  · rw [two_complement_length]
    exact ⟨hmaglen, by omega⟩
  · exact ⟨hmaglen, by omega⟩

/-- C2 counterexample: at `x = 300` with eight integer and eight fractional
bits the integer magnitude does not fit, no error is raised, and the output
does NOT have `8 + 8` characters (it has 17): the claim's "still has exactly
`integer_bits + fractional_bits` characters" is false. -/
theorem C2_counterexample :
    2 ^ 8 ≤ (⌊|(300 : ℚ)|⌋).toNat ∧ (float_bin 300 8 8).length ≠ 8 + 8 := by
  have h1 : (⌊|(300 : ℚ)|⌋).toNat = 300 := by
    have habs : |(300 : ℚ)| = 300 := by norm_num
    have hfl : ⌊(300 : ℚ)⌋ = 300 := by norm_num
    rw [habs, hfl]
    rfl
  have hover : 2 ^ 8 ≤ (⌊|(300 : ℚ)|⌋).toNat := by
    rw [h1]
    norm_num
  refine ⟨hover, ?_⟩
  have hlen := (float_bin_overflow_length 300 8 8 (by norm_num) hover).2
  omega

/-- C2 (amended): for every input whose integer magnitude does not fit in
`int_len` bits, `float_bin` raises no error (it is a total function of the
embedding), but the bit-string is NOT truncated to the given width: the
integer field is widened to the minimal binary length of the whole part, so
the output has strictly more than `int_len + float_len` characters. -/
theorem C2_overflow_widens (x : ℚ) (int_len float_len : ℕ)
    (hf : 1 ≤ float_len) (hover : 2 ^ int_len ≤ (⌊|x|⌋).toNat) :
    (float_bin x int_len float_len).length
      = (natToBin (⌊|x|⌋).toNat).length + float_len ∧
      int_len + float_len < (float_bin x int_len float_len).length :=
  float_bin_overflow_length x int_len float_len hf hover

/-- Witness for the amended C2 at `x = 300`, eight integer and eight
fractional bits. -/
theorem C2_overflow_widens_witness :
    (1 ≤ 8 ∧ 2 ^ 8 ≤ (⌊|(300 : ℚ)|⌋).toNat) ∧
    ((float_bin 300 8 8).length = (natToBin (⌊|(300 : ℚ)|⌋).toNat).length + 8 ∧
      8 + 8 < (float_bin 300 8 8).length) := by
  have h1 : (⌊|(300 : ℚ)|⌋).toNat = 300 := by
    have habs : |(300 : ℚ)| = 300 := by norm_num
    have hfl : ⌊(300 : ℚ)⌋ = 300 := by norm_num
    rw [habs, hfl]
    rfl
  have hover : 2 ^ 8 ≤ (⌊|(300 : ℚ)|⌋).toNat := by
    rw [h1]
    norm_num
  exact ⟨⟨by norm_num, hover⟩, C2_overflow_widens 300 8 8 (by norm_num) hover⟩

end Quant

namespace Quant

theorem decode_isSome_of_length (bin : List Char) (i f : ℕ)
    (hlen : i + f ≤ bin.length) :
    ∃ q, convert_two_complement2decmail bin i f = some q := by
  rw [convert_two_complement2decmail]
  rw [sumTermsInt_eval _ i _ (fun j hj => by
    rw [List.length_take]
    have := List.mem_range.mp hj
    omega)]
  rw [sumTermsFrac_eval _ _ (fun j hj => by
    rw [List.length_drop]
    have := List.mem_range.mp hj
    omega)]
  exact ⟨_, rfl⟩

theorem sumTermsInt_none (l : List Char) (m : ℕ) (ids : List ℕ) (j : ℕ)
    (hj : j ∈ ids) (hlen : l.length ≤ j) : sumTermsInt l m ids = none := by
  induction ids with
  | nil => simp at hj
  | cons a rest ih =>
    rw [sumTermsInt]
    rcases List.mem_cons.mp hj with h | h
    · subst h
      rw [List.get?_eq_none.mpr hlen]
      rfl
    · cases hg : l.get? a with
      | none => rfl
      | some c => rw [ih h]; rfl

theorem sumTermsFrac_none (l : List Char) (ids : List ℕ) (j : ℕ)
    (hj : j ∈ ids) (hlen : l.length ≤ j) : sumTermsFrac l ids = none := by
  induction ids with
  | nil => simp at hj
  | cons a rest ih =>
    rw [sumTermsFrac]
    rcases List.mem_cons.mp hj with h | h
    · subst h
      rw [List.get?_eq_none.mpr hlen]
      rfl
    · cases hg : l.get? a with
      | none => rfl
      | some c => rw [ih h]; rfl

theorem decode_none_of_short (bin : List Char) (i f : ℕ)
    (hlen : bin.length < i + f) :
    convert_two_complement2decmail bin i f = none := by
  rcases Nat.lt_or_ge bin.length i with hlt | hge
  · rw [convert_two_complement2decmail]
    have hnone := sumTermsInt_none (bin.take i) i (List.range i) bin.length
      (List.mem_range.mpr hlt) (by rw [List.length_take]; omega)
    rw [hnone]
    rfl
  · rw [convert_two_complement2decmail]
    rw [sumTermsInt_eval _ i _ (fun j hj => by
      rw [List.length_take]
      have := List.mem_range.mp hj
      omega)]
    have hnone := sumTermsFrac_none (bin.drop i) (List.range f) (bin.length - i)
      (List.mem_range.mpr (by omega)) (by rw [List.length_drop])
    rw [hnone]
    rfl

theorem decodeSections_map (full : List Char) (i f : ℕ) (ids : List ℕ) (vals : List ℚ)
    (h : List.Forall₂ (fun k q => convert_two_complement2decmail
      ((full.drop (k * (i + f))).take (i + f)) i f = some q) ids vals) :
    decodeSections full i f ids = some vals := by
  induction h with
  | nil => rfl
  | cons hq _ ih =>
    rw [decodeSections, hq, ih]
    rfl

theorem forall2_map_self {P : ℕ → ℚ → Prop} (g : ℕ → ℚ) (ids : List ℕ)
    (hp : ∀ a ∈ ids, P a (g a)) : List.Forall₂ P ids (ids.map g) := by
  induction ids with
  | nil => exact List.Forall₂.nil
  | cons a rest ih =>
    exact List.Forall₂.cons (hp a (List.mem_cons_self a rest))
      (ih fun b hb => hp b (List.mem_cons_of_mem a hb))

theorem decodeSections_none (full : List Char) (i f : ℕ) (ids : List ℕ) (k : ℕ)
    (hk : k ∈ ids)
    (hnone : convert_two_complement2decmail
      ((full.drop (k * (i + f))).take (i + f)) i f = none) :
    decodeSections full i f ids = none := by
  induction ids with
  | nil => simp at hk
  | cons a rest ih =>
    rw [decodeSections]
    rcases List.mem_cons.mp hk with h | h
    · subst h
      rw [hnone]
      rfl
    · cases hg : convert_two_complement2decmail
        ((full.drop (a * (i + f))).take (i + f)) i f with
      | none => rfl
      | some q => rw [ih h]; rfl

/-- C5: Bulk slicing correctness: for every string of length at least
`section_nums * (int_len + float_len)`, `convert_big_num_to_binary` returns a
list of exactly `section_nums` values whose `k`-th entry is
`convert_two_complement2decmail` of the `k`-th consecutive
`(int_len + float_len)`-character chunk, in original chunk order. -/
theorem C5_bulk_slicing (s : List Char) (section_nums int_len float_len : ℕ)
    (hlen : section_nums * (int_len + float_len) ≤ s.length) :
    ∃ l, convert_big_num_to_binary s section_nums int_len float_len = some l ∧
      l.length = section_nums ∧
      ∀ k, k < section_nums →
        l.get? k = convert_two_complement2decmail
          ((s.drop (k * (int_len + float_len))).take (int_len + float_len))
          int_len float_len := by
  have hsome : ∀ k, k < section_nums → ∃ q,
      convert_two_complement2decmail
        ((s.drop (k * (int_len + float_len))).take (int_len + float_len))
        int_len float_len = some q := by
    intro k hk
    apply decode_isSome_of_length
    rw [List.length_take, List.length_drop]
    have hmul : (k + 1) * (int_len + float_len)
        ≤ section_nums * (int_len + float_len) :=
      Nat.mul_le_mul_right _ hk
    have hsucc : (k + 1) * (int_len + float_len)
        = k * (int_len + float_len) + (int_len + float_len) := Nat.succ_mul _ _
    omega
  refine ⟨(List.range section_nums).map (fun k =>
      (convert_two_complement2decmail
        ((s.drop (k * (int_len + float_len))).take (int_len + float_len))
        int_len float_len).getD 0), ?_, by simp, ?_⟩
  · rw [convert_big_num_to_binary]
    apply decodeSections_map
    apply forall2_map_self
    intro a ha
    obtain ⟨q, hq⟩ := hsome a (List.mem_range.mp ha)
    rw [hq]
    rfl
  · intro k hk
    rw [List.get?_map, List.get?_range hk]
    obtain ⟨q, hq⟩ := hsome k hk
    simp [hq]

/-- Witness for C5: a 16-character string split as two values of four integer
and four fractional bits. -/
theorem C5_bulk_slicing_witness :
    2 * (4 + 4) ≤ ("0001100011101000".toList).length ∧
    (∃ l, convert_big_num_to_binary ("0001100011101000".toList) 2 4 4 = some l ∧
      l.length = 2 ∧
      ∀ k, k < 2 →
        l.get? k = convert_two_complement2decmail
          ((("0001100011101000".toList).drop (k * (4 + 4))).take (4 + 4)) 4 4) :=
  ⟨by decide, C5_bulk_slicing ("0001100011101000".toList) 2 4 4 (by decide)⟩

/-- C6: Bulk decode failure on short input: for every string strictly shorter
than `section_nums * (int_len + float_len)`, `convert_big_num_to_binary`
fails (the out-of-range chunk indexing raises, modelled by `none`) rather
than returning fewer than `section_nums` values. -/
theorem C6_bulk_decode_short (s : List Char) (section_nums int_len float_len : ℕ)
    (hlen : s.length < section_nums * (int_len + float_len)) :
    convert_big_num_to_binary s section_nums int_len float_len = none := by
  have hw0 : 0 < int_len + float_len := by
    rcases Nat.eq_zero_or_pos (int_len + float_len) with h0 | h
    · rw [h0, Nat.mul_zero] at hlen
      omega
    · exact h
  have hdm : (s.length / (int_len + float_len)) * (int_len + float_len)
      + s.length % (int_len + float_len) = s.length := by
    rw [Nat.mul_comm]
    exact Nat.div_add_mod s.length (int_len + float_len)
  have hmod := Nat.mod_lt s.length hw0
  have hkmul : (s.length / (int_len + float_len)) * (int_len + float_len)
      < section_nums * (int_len + float_len) := by omega
  have hk : s.length / (int_len + float_len) < section_nums :=
    Nat.lt_of_mul_lt_mul_right hkmul
  rw [convert_big_num_to_binary]
  apply decodeSections_none s int_len float_len (List.range section_nums)
    (s.length / (int_len + float_len)) (List.mem_range.mpr hk)
  apply decode_none_of_short
  rw [List.length_take, List.length_drop]
  omega

/-- Witness for C6: a 15-character string is too short for two values of
eight bits each. -/
theorem C6_bulk_decode_short_witness :
    ("000110001110100".toList).length < 2 * (4 + 4) ∧
    convert_big_num_to_binary ("000110001110100".toList) 2 4 4 = none :=
  ⟨by decide, C6_bulk_decode_short ("000110001110100".toList) 2 4 4 (by decide)⟩

end Quant

namespace Quant

theorem foldl_row (enc : ℚ → List Char) (row : List ℚ) :
    ∀ acc : List Char, row.foldl (fun it v => enc v ++ it) acc
      = ((row.reverse).map enc).flatten ++ acc := by
  induction row with
  | nil => intro acc; simp
  | cons v rest ih =>
    intro acc
    rw [List.foldl_cons, ih, List.reverse_cons, List.map_append, List.flatten_append]
    simp

theorem foldl_kernel (enc : ℚ → List Char) (kernel : List (List ℚ)) :
    ∀ acc : List Char,
      kernel.foldl (fun it_raw row => row.foldl (fun it v => enc v ++ it) it_raw) acc
        = ((kernel.flatten.reverse).map enc).flatten ++ acc := by
  induction kernel with
  | nil => intro acc; simp
  | cons row rows ih =>
    intro acc
    rw [List.foldl_cons, foldl_row enc row acc, ih, List.flatten_cons,
      List.reverse_append, List.map_append, List.flatten_append, List.append_assoc]

theorem qun_conv_line_eq (kernel : List (List ℚ)) (int_len float_len : ℕ) :
    qun_conv_line kernel int_len float_len
      = ((kernel.flatten.reverse).map (fun v => float_bin v int_len float_len)).flatten := by
  rw [qun_conv_line, foldl_kernel]
  simp

/-- C7: Kernel-weight packing order: `qun_conv` emits one line per output
channel; each line is the concatenation of the encoded values of that
channel's kernel window in reverse raster order (last spatial position
first) followed by a newline; for the 3x3 kernel `[[1,2,3],[4,5,6],[7,8,9]]`
the packed line is the concatenation of the encodings of
`9,8,7,6,5,4,3,2,1` in that order. -/
theorem C7_kernel_packing :
    (∀ (weights : List (List (List (List ℚ)))) (int_len float_len : ℕ),
      qun_conv_lines weights int_len float_len
        = weights.map (fun chan =>
            (((chan.headD []).flatten.reverse).map
              (fun v => float_bin v int_len float_len)).flatten ++ ['\n']) ∧
      (qun_conv_lines weights int_len float_len).length = weights.length) ∧
    qun_conv_line [[1, 2, 3], [4, 5, 6], [7, 8, 9]] 8 8
      = float_bin 9 8 8 ++ float_bin 8 8 8 ++ float_bin 7 8 8 ++ float_bin 6 8 8 ++
        float_bin 5 8 8 ++ float_bin 4 8 8 ++ float_bin 3 8 8 ++ float_bin 2 8 8 ++
        float_bin 1 8 8 := by
  constructor
  · intro weights int_len float_len
    constructor
    · rw [qun_conv_lines]
      simp only [qun_conv_line_eq]
    · simp [qun_conv_lines]
  · rw [qun_conv_line_eq]
    simp [List.append_assoc]

/-- C8: Classification thresholds of the overall assessment: exact-match
percentage 96 with mean error 0.5 is EXCELLENT, 85 with 1.5 is ACCEPTABLE,
and every input lands in one of the four fixed tiers. -/
theorem C8_classification_thresholds :
    assessment 96 (1 / 2) = "EXCELLENT" ∧ assessment 85 (3 / 2) = "ACCEPTABLE" ∧
    ∀ accuracy_percent mean_error : ℚ,
      assessment accuracy_percent mean_error = "EXCELLENT" ∨
      assessment accuracy_percent mean_error = "GOOD" ∨
      assessment accuracy_percent mean_error = "ACCEPTABLE" ∨
      assessment accuracy_percent mean_error = "NEEDS IMPROVEMENT" := by
  refine ⟨?_, ?_, ?_⟩
  · rw [assessment, if_pos (by norm_num)]
  · rw [assessment, if_neg (by norm_num), if_neg (by norm_num), if_pos (by norm_num)]
  · intro a m
    rw [assessment]
    split
    · exact Or.inl rfl
    · split
      · exact Or.inr (Or.inl rfl)
      · split
        · exact Or.inr (Or.inr (Or.inl rfl))
        · exact Or.inr (Or.inr (Or.inr rfl))

end Quant

namespace Quant

theorem parseAnalysisLine_no_labels (r : AnalysisResults) (line : List Char)
    (h1 : containsSub labelTotal line = false)
    (h2 : containsSub labelExact line = false)
    (h3 : containsSub labelClose1 line = false)
    (h4 : containsSub labelErrors line = false)
    (h5 : containsSub labelMean line = false)
    (h6 : containsSub labelMax line = false) :
    parseAnalysisLine r line = some r := by
  rw [parseAnalysisLine, h1, h2, h3, h4, h5, h6]
  simp

theorem parseAnalysisLines_no_labels (lines : List (List Char)) :
    ∀ r : AnalysisResults,
    (∀ line ∈ lines,
      containsSub labelTotal line = false ∧ containsSub labelExact line = false ∧
      containsSub labelClose1 line = false ∧ containsSub labelErrors line = false ∧
      containsSub labelMean line = false ∧ containsSub labelMax line = false) →
    parseAnalysisLines r lines = some r := by
  induction lines with
  | nil => intro r _; rfl
  | cons line rest ih =>
    intro r h
    obtain ⟨h1, h2, h3, h4, h5, h6⟩ := h line (List.mem_cons_self _ _)
    rw [parseAnalysisLines,
      parseAnalysisLine_no_labels r line h1 h2 h3 h4 h5 h6]
    exact ih r (fun l hl => h l (List.mem_cons_of_mem _ hl))


theorem parseAnalysisLine_fields (r r1 : AnalysisResults) (line : List Char)
    (hp : parseAnalysisLine r line = some r1) :
    (containsSub labelTotal line = false → r1.total_outputs = r.total_outputs) ∧
    (containsSub labelExact line = false → r1.exact_matches = r.exact_matches) ∧
    ((containsSub labelClose1 line && containsSub labelClose2 line) = false →
      r1.close_matches = r.close_matches) ∧
    (containsSub labelErrors line = false → r1.total_errors = r.total_errors) ∧
    (containsSub labelMean line = false → r1.mean_error = r.mean_error) ∧
    (containsSub labelMax line = false → r1.max_error = r.max_error) := by
  rw [parseAnalysisLine] at hp
  split at hp
  · rename_i hc
    obtain ⟨v, _, hv⟩ := Option.map_eq_some'.mp hp
    subst hv
    exact ⟨fun hfalse => absurd hc (by simp [hfalse]),
      fun _ => rfl, fun _ => rfl, fun _ => rfl, fun _ => rfl, fun _ => rfl⟩
  · split at hp
    · rename_i hc
      obtain ⟨v, _, hv⟩ := Option.map_eq_some'.mp hp
      subst hv
      exact ⟨fun _ => rfl, fun hfalse => absurd hc (by simp [hfalse]),
        fun _ => rfl, fun _ => rfl, fun _ => rfl, fun _ => rfl⟩
    · split at hp
      · rename_i hc
        obtain ⟨v, _, hv⟩ := Option.map_eq_some'.mp hp
        subst hv
        exact ⟨fun _ => rfl, fun _ => rfl,
          fun hfalse => absurd hc (by simp [hfalse]),
          fun _ => rfl, fun _ => rfl, fun _ => rfl⟩
      · split at hp
        · rename_i hc
          obtain ⟨v, _, hv⟩ := Option.map_eq_some'.mp hp
          subst hv
          exact ⟨fun _ => rfl, fun _ => rfl, fun _ => rfl,
            fun hfalse => absurd hc (by simp [hfalse]),
            fun _ => rfl, fun _ => rfl⟩
        · split at hp
          · rename_i hc
            obtain ⟨v, _, hv⟩ := Option.map_eq_some'.mp hp
            subst hv
            exact ⟨fun _ => rfl, fun _ => rfl, fun _ => rfl, fun _ => rfl,
              fun hfalse => absurd hc (by simp [hfalse]),
              fun _ => rfl⟩
          · split at hp
            · rename_i hc
              obtain ⟨v, _, hv⟩ := Option.map_eq_some'.mp hp
              subst hv
              exact ⟨fun _ => rfl, fun _ => rfl, fun _ => rfl, fun _ => rfl,
                fun _ => rfl,
                fun hfalse => absurd hc (by simp [hfalse])⟩
            · injection hp with h
              subst h
              exact ⟨fun _ => rfl, fun _ => rfl, fun _ => rfl, fun _ => rfl,
                fun _ => rfl, fun _ => rfl⟩

theorem parseAnalysisLines_fields (lines : List (List Char)) :
    ∀ r r1 : AnalysisResults, parseAnalysisLines r lines = some r1 →
    ((∀ line ∈ lines, containsSub labelTotal line = false) →
      r1.total_outputs = r.total_outputs) ∧
    ((∀ line ∈ lines, containsSub labelExact line = false) →
      r1.exact_matches = r.exact_matches) ∧
    ((∀ line ∈ lines,
        (containsSub labelClose1 line && containsSub labelClose2 line) = false) →
      r1.close_matches = r.close_matches) ∧
    ((∀ line ∈ lines, containsSub labelErrors line = false) →
      r1.total_errors = r.total_errors) ∧
    ((∀ line ∈ lines, containsSub labelMean line = false) →
      r1.mean_error = r.mean_error) ∧
    ((∀ line ∈ lines, containsSub labelMax line = false) →
      r1.max_error = r.max_error) := by
  induction lines with
  | nil =>
    intro r r1 hp
    cases hp
    exact ⟨fun _ => rfl, fun _ => rfl, fun _ => rfl, fun _ => rfl,
      fun _ => rfl, fun _ => rfl⟩
  | cons line rest ih =>
    intro r r1 hp
    rw [parseAnalysisLines] at hp
    cases hpl : parseAnalysisLine r line with
    | none =>
      rw [hpl] at hp
      cases hp
    | some rmid =>
      rw [hpl] at hp
      have hstep := parseAnalysisLine_fields r rmid line hpl
      have hrec := ih rmid r1 hp
      refine ⟨?_, ?_, ?_, ?_, ?_, ?_⟩ <;> intro h
      · rw [hrec.1 (fun l hl => h l (List.mem_cons_of_mem _ hl)),
          hstep.1 (h line (List.mem_cons_self _ _))]
      · rw [hrec.2.1 (fun l hl => h l (List.mem_cons_of_mem _ hl)),
          hstep.2.1 (h line (List.mem_cons_self _ _))]
      · rw [hrec.2.2.1 (fun l hl => h l (List.mem_cons_of_mem _ hl)),
          hstep.2.2.1 (h line (List.mem_cons_self _ _))]
      · rw [hrec.2.2.2.1 (fun l hl => h l (List.mem_cons_of_mem _ hl)),
          hstep.2.2.2.1 (h line (List.mem_cons_self _ _))]
      · rw [hrec.2.2.2.2.1 (fun l hl => h l (List.mem_cons_of_mem _ hl)),
          hstep.2.2.2.2.1 (h line (List.mem_cons_self _ _))]
      · rw [hrec.2.2.2.2.2 (fun l hl => h l (List.mem_cons_of_mem _ hl)),
          hstep.2.2.2.2.2 (h line (List.mem_cons_self _ _))]

theorem read_analysis_file_some_inv (lines : List (List Char))
    (result : AnalysisResults) (warned : Bool)
    (hr : read_analysis_file (some lines) = some (result, warned)) :
    parseAnalysisLines emptyResults lines = some result := by
  rw [read_analysis_file] at hr
  cases hpl : parseAnalysisLines emptyResults lines with
  | none =>
    rw [hpl] at hr
    cases hr
  | some r1 =>
    rw [hpl] at hr
    have hpair : (r1, false) = (result, warned) := by injection hr
    have h1 : r1 = result := congrArg Prod.fst hpair
    rw [h1]

/-- C9: Missing-file degradation: a missing file makes `read_hex_file` return
the empty list and `read_analysis_file` the empty dict, each after printing a
warning (the `Bool` flag) and without aborting; an existing analysis-summary
file with no recognized label line parses to the empty dict; and for each of
the six metrics, absence of that metric's recognized label line (whatever
other lines the file contains) leaves the metric absent, so it defaults to
zero under the `getD 0` lookup of `generate_report`. -/
theorem C9_missing_file_degradation :
    read_hex_file none = ([], true) ∧
    read_analysis_file none = some (emptyResults, true) ∧
    (∀ lines : List (List Char),
      (∀ line ∈ lines,
        containsSub labelTotal line = false ∧ containsSub labelExact line = false ∧
        containsSub labelClose1 line = false ∧ containsSub labelErrors line = false ∧
        containsSub labelMean line = false ∧ containsSub labelMax line = false) →
      read_analysis_file (some lines) = some (emptyResults, false)) ∧
    (∀ (lines : List (List Char)) (result : AnalysisResults) (warned : Bool),
      (∀ line ∈ lines, containsSub labelTotal line = false) →
      read_analysis_file (some lines) = some (result, warned) →
      result.total_outputs.getD 0 = 0) ∧
    (∀ (lines : List (List Char)) (result : AnalysisResults) (warned : Bool),
      (∀ line ∈ lines, containsSub labelExact line = false) →
      read_analysis_file (some lines) = some (result, warned) →
      result.exact_matches.getD 0 = 0) ∧
    (∀ (lines : List (List Char)) (result : AnalysisResults) (warned : Bool),
      (∀ line ∈ lines,
        (containsSub labelClose1 line && containsSub labelClose2 line) = false) →
      read_analysis_file (some lines) = some (result, warned) →
      result.close_matches.getD 0 = 0) ∧
    (∀ (lines : List (List Char)) (result : AnalysisResults) (warned : Bool),
      (∀ line ∈ lines, containsSub labelErrors line = false) →
      read_analysis_file (some lines) = some (result, warned) →
      result.total_errors.getD 0 = 0) ∧
    (∀ (lines : List (List Char)) (result : AnalysisResults) (warned : Bool),
      (∀ line ∈ lines, containsSub labelMean line = false) →
      read_analysis_file (some lines) = some (result, warned) →
      result.mean_error.getD 0 = 0) ∧
    (∀ (lines : List (List Char)) (result : AnalysisResults) (warned : Bool),
      (∀ line ∈ lines, containsSub labelMax line = false) →
      read_analysis_file (some lines) = some (result, warned) →
      result.max_error.getD 0 = 0) ∧
    (emptyResults.total_outputs.getD 0 = 0 ∧ emptyResults.exact_matches.getD 0 = 0 ∧
      emptyResults.close_matches.getD 0 = 0 ∧ emptyResults.total_errors.getD 0 = 0 ∧
      emptyResults.mean_error.getD 0 = 0 ∧ emptyResults.max_error.getD 0 = 0) := by
  refine ⟨rfl, rfl, ?_, ?_, ?_, ?_, ?_, ?_, ?_, rfl, rfl, rfl, rfl, rfl, rfl⟩
  · intro lines h
    rw [read_analysis_file, parseAnalysisLines_no_labels lines emptyResults h]
    rfl
  · intro lines result warned h hr
    have hpl := read_analysis_file_some_inv lines result warned hr
    have hfield := (parseAnalysisLines_fields lines emptyResults result hpl).1 h
    rw [hfield]
    rfl
  · intro lines result warned h hr
    have hpl := read_analysis_file_some_inv lines result warned hr
    have hfield := (parseAnalysisLines_fields lines emptyResults result hpl).2.1 h
    rw [hfield]
    rfl
  · intro lines result warned h hr
    have hpl := read_analysis_file_some_inv lines result warned hr
    have hfield := (parseAnalysisLines_fields lines emptyResults result hpl).2.2.1 h
    rw [hfield]
    rfl
  · intro lines result warned h hr
    have hpl := read_analysis_file_some_inv lines result warned hr
    have hfield := (parseAnalysisLines_fields lines emptyResults result hpl).2.2.2.1 h
    rw [hfield]
    rfl
  · intro lines result warned h hr
    have hpl := read_analysis_file_some_inv lines result warned hr
    have hfield := (parseAnalysisLines_fields lines emptyResults result hpl).2.2.2.2.1 h
    rw [hfield]
    rfl
  · intro lines result warned h hr
    have hpl := read_analysis_file_some_inv lines result warned hr
    have hfield := (parseAnalysisLines_fields lines emptyResults result hpl).2.2.2.2.2 h
    rw [hfield]
    rfl

/-- Witness for C9: a summary file with no recognized label parses to the
empty dict without warning, and a file containing only an exact-matches line
still leaves the total-errors metric at its zero default. -/
theorem C9_missing_file_degradation_witness :
    read_analysis_file (some ["hello user".toList]) = some (emptyResults, false) ∧
    (⟨none, some 10, none, none, none, none⟩ : AnalysisResults).total_errors.getD 0
      = 0 :=
  ⟨C9_missing_file_degradation.2.2.1 ["hello user".toList] (by decide),
    C9_missing_file_degradation.2.2.2.2.2.2.1
      ["Exact matches: 10 (50%)".toList]
      ⟨none, some 10, none, none, none, none⟩ false (by decide) (by decide)⟩

end Quant

namespace Quant

theorem convert_chunks_eq (d : List Char) :
    ((toChunks d).filter (fun chunk => chunk.length == value_width)).map
      (fun chunk => hex4 (bitsVal chunk))
      = (List.range (d.length / value_width)).map
          (fun k => hex4 (bitsVal ((d.drop (value_width * k)).take value_width))) := by
  induction d using toChunks.induct with
  | case1 =>
    rw [toChunks]
    simp
  | case2 d hne ih =>
    rw [toChunks, dif_neg hne, List.filter_cons]
    rcases Nat.lt_or_ge d.length value_width with hlt | hge
    · have htake : d.take value_width = d := List.take_of_length_le (by omega)
      have hpred : (d.length == value_width) = false := by
        simp only [beq_eq_false_iff_ne]
        omega
      rw [htake, hpred, if_neg (by simp)]
      have hdrop : d.drop value_width = [] := List.drop_eq_nil_of_le (by omega)
      rw [hdrop, Nat.div_eq_of_lt hlt]
      rw [toChunks]
      simp
    · have hlen : (d.take value_width).length = value_width := by
        rw [List.length_take]
        omega
      rw [hlen]
      rw [if_pos (by simp)]
      rw [List.map_cons, ih]
      have hq : d.length / value_width = (d.drop value_width).length / value_width + 1 := by
        rw [List.length_drop]
        rw [Nat.div_eq_sub_div (by rw [value_width]; omega) hge]
      rw [hq, List.range_succ_eq_map, List.map_cons, List.map_map]
      congr 1
      refine List.map_congr_left ?_
      intro k _
      simp only [Function.comp_apply]
      have hidx : value_width * k.succ = value_width + value_width * k := by
        rw [Nat.mul_succ]
        omega
      rw [List.drop_drop, hidx]

theorem convert_hs1_op_mem_eq (data : List Char) :
    convert_hs1_op_mem data
      = (List.range ((data.filter (fun c => !c.isWhitespace)).length / value_width)).map
          (fun k => hex4 (bitsVal
            (((data.filter (fun c => !c.isWhitespace)).drop (value_width * k)).take
              value_width))) := by
  rw [convert_hs1_op_mem]
  exact convert_chunks_eq _

theorem hexDigitChar_range : ∀ n, n < 16 →
    (hexDigitChar n).isDigit = true ∨ ('A' ≤ hexDigitChar n ∧ hexDigitChar n ≤ 'F') := by
  decide

theorem hex4_chars (v : ℕ) :
    ∀ c ∈ hex4 v, c.isDigit = true ∨ ('A' ≤ c ∧ c ≤ 'F') := by
  intro c hc
  have h16 : ∀ y : ℕ, y % 16 < 16 := fun y => Nat.mod_lt y (by norm_num)
  simp only [hex4, List.mem_cons, List.not_mem_nil, or_false] at hc
  rcases hc with h | h | h | h <;> subst h <;> exact hexDigitChar_range _ (h16 _)

/-- C10: Hex rebasing edge case: after removing all whitespace, the script of
`convert_hs1_op_mem.py` emits exactly `length / 16` output lines, the `k`-th
line being the 4-digit uppercase hexadecimal rendering of the `k`-th
consecutive 16-bit chunk in original order; a trailing chunk shorter than 16
bits is silently discarded (the count is the floor), producing neither an
output value nor an error. -/
theorem C10_hex_rebasing (data : List Char)
    (hb : ∀ c ∈ data, c = '0' ∨ c = '1' ∨ c.isWhitespace = true) :
    value_width = 16 ∧
    (convert_hs1_op_mem data).length
      = (data.filter (fun c => !c.isWhitespace)).length / value_width ∧
    (∀ k, k < (data.filter (fun c => !c.isWhitespace)).length / value_width →
      (convert_hs1_op_mem data).get? k
        = some (hex4 (bitsVal
            (((data.filter (fun c => !c.isWhitespace)).drop (value_width * k)).take
              value_width)))) ∧
    (∀ line ∈ convert_hs1_op_mem data, line.length = 4) ∧
    ∀ line ∈ convert_hs1_op_mem data, ∀ c ∈ line,
      c.isDigit = true ∨ ('A' ≤ c ∧ c ≤ 'F') := by
  have heq := convert_hs1_op_mem_eq data
  refine ⟨rfl, ?_, ?_, ?_, ?_⟩
  · rw [heq]
    simp
  · intro k hk
    rw [heq, List.get?_map, List.get?_range hk]
    rfl
  · intro line hline
    rw [heq] at hline
    simp only [List.mem_map] at hline
    obtain ⟨k, _, hk⟩ := hline
    rw [← hk]
    rfl
  · intro line hline
    rw [heq] at hline
    simp only [List.mem_map] at hline
    obtain ⟨k, _, hk⟩ := hline
    rw [← hk]
    exact hex4_chars _

/-- Witness for C10 on a 21-character input: one full 16-bit chunk, a space,
and a discarded 4-bit tail. -/
theorem C10_hex_rebasing_witness :
    (∀ c ∈ ("0000111100001111 0101".toList), c = '0' ∨ c = '1' ∨ c.isWhitespace = true) ∧
    (convert_hs1_op_mem ("0000111100001111 0101".toList)).length
      = (("0000111100001111 0101".toList).filter (fun c => !c.isWhitespace)).length
        / value_width :=
  ⟨by decide, (C10_hex_rebasing ("0000111100001111 0101".toList) (by decide)).2.1⟩

end Quant
